import Mathlib

/-! Verification of the quantum-secure-evaluator repository: a shallow
embedding of the password strength estimator and the Grover-style search
engine of src/main.py, src/advanced.py, src/mostadvanced.py,
src/mostadvanced_tool.py and src/evaluator.py, with theorems settling the
spec claims.

Python strings are modelled as `List Char` (ASCII semantics for the
character-class predicates), Python arbitrary-precision integers as `Nat`,
and the state-vector simulation over `bits` qubits as amplitude vectors
`(Fin bits → Bool) → ℚ`, where qubit `i` of a basis state carries character
`i` of the target index written with `format(index, f"0{bits}b")`.
The Hadamard gate is tracked in scaled form: `applyH2` is `sqrt 2 · H`,
an integer matrix, so a gate block containing an even number of Hadamard
gates is recovered exactly by dividing by the matching power of two,
because `(1/sqrt 2) · (1/sqrt 2) = 1/2` holds exactly. -/

/-- Basis states of an `n`-qubit register: qubit `i` holds the bit `s i`. -/
abbrev QState (n : ℕ) := Fin n → Bool

/-- Amplitude vectors over the basis states, with rational entries. -/
abbrev Amp (n : ℕ) := QState n → ℚ

/-- The X (NOT) gate on qubit `i`, acting on amplitude vectors. -/
def applyX {n : ℕ} (i : Fin n) (v : Amp n) : Amp n :=
  fun s => v (Function.update s i (!(s i)))

/-- The `sqrt 2`-scaled Hadamard gate on qubit `i`: the matrix `[1,1;1,-1]`. -/
def applyH2 {n : ℕ} (i : Fin n) (v : Amp n) : Amp n :=
  fun s =>
    v (Function.update s i false) + (if s i then -1 else 1) * v (Function.update s i true)

/-- Multi-controlled X gate: flips qubit `t` when every control qubit is 1.
The sources call `mcx(list(range(bits - 1)), bits - 1)`. -/
def applyMCX {n : ℕ} (controls : List (Fin n)) (t : Fin n) (v : Amp n) : Amp n :=
  fun s => if controls.all (fun j => s j) then v (Function.update s t (!(s t))) else v s

/-- The X-sandwich of the oracle and diffuser: the loop
`for i, bit in enumerate(binary): if bit == "0": x(i)`, as a fold over the
qubit positions; `pattern i = true` means character `i` of `binary` is 1. -/
def xsForZeros {n : ℕ} (pattern : Fin n → Bool) (v : Amp n) : Amp n :=
  (List.finRange n).foldl (fun w i => if pattern i then w else applyX i w) v

/-- Control list `list(range(bits - 1))` of the multi-controlled X. -/
def oracleControls (m : ℕ) : List (Fin (m + 1)) :=
  (List.finRange m).map Fin.castSucc

/-- The scaled Grover oracle of `grover_search_simulation`: X on the
zero-bits of the pattern, `sqrt 2`-scaled H on the last qubit, MCX over all
other qubits, scaled H on the last qubit, then the X layer again.  It equals
`2 ·` (the true unitary oracle) because it contains two Hadamard gates. -/
def oracleScaled {m : ℕ} (pattern : Fin (m + 1) → Bool) (v : Amp (m + 1)) : Amp (m + 1) :=
  xsForZeros pattern
    (applyH2 (Fin.last m)
      (applyMCX (oracleControls m) (Fin.last m)
        (applyH2 (Fin.last m) (xsForZeros pattern v))))

/-- The oracle of the search engine as the exact unitary transformation:
the scaled composite divided by `2 = sqrt 2 · sqrt 2`. -/
def grover_oracle {m : ℕ} (pattern : Fin (m + 1) → Bool) (v : Amp (m + 1)) : Amp (m + 1) :=
  fun s => oracleScaled pattern v s / 2

/-- Character `i` of `format(index, f"0{bits}b")` as a Boolean: bit
`bits - 1 - i` of `index` (most significant character first). -/
def binRep (bits index : ℕ) : Fin bits → Bool :=
  fun i => index.testBit (bits - 1 - i.val)

/-- Net effect of the X-sandwich on a basis state: flip every position
whose pattern bit is 0. -/
def flipZeros {n : ℕ} (pattern : Fin n → Bool) (s : QState n) : QState n :=
  fun i => if pattern i then s i else !(s i)

/-- `h(range(bits))`, scaled: one scaled Hadamard on every qubit. -/
def applyH2All {n : ℕ} (v : Amp n) : Amp n :=
  (List.finRange n).foldl (fun w i => applyH2 i w) v

/-- `x(range(bits))`: one X gate on every qubit. -/
def applyXAll {n : ℕ} (v : Amp n) : Amp n :=
  (List.finRange n).foldl (fun w i => applyX i w) v

/-- The scaled Grover diffuser of `grover_search_simulation`: H on all
qubits, X on all qubits, H / MCX / H on the last qubit, X on all qubits,
H on all qubits; it carries `2 * bits + 2` scaled Hadamard gates. -/
def diffuserScaled {m : ℕ} (v : Amp (m + 1)) : Amp (m + 1) :=
  applyH2All
    (applyXAll
      (applyH2 (Fin.last m)
        (applyMCX (oracleControls m) (Fin.last m)
          (applyH2 (Fin.last m) (applyXAll (applyH2All v))))))

/-- One amplification round: append the oracle gate then the diffuser gate. -/
def groverStepScaled {m : ℕ} (pattern : Fin (m + 1) → Bool) (v : Amp (m + 1)) : Amp (m + 1) :=
  diffuserScaled (oracleScaled pattern v)

/-- The scaled state after `h(range(bits))` on the all-zero register: the
all-ones amplitude vector (each scaled H maps basis 0 to the sum of basis
0 and basis 1). -/
def uniformScaled (m : ℕ) : Amp (m + 1) := fun _ => 1

/-- `iterations = int((math.pi / 4) * math.sqrt(2 ** bits))`: the float
truncation of a positive value, modelled as the real floor. -/
noncomputable def groverIterations (bits : ℕ) : ℕ :=
  ⌊(Real.pi / 4) * Real.sqrt ((2 : ℝ) ^ bits)⌋₊

/-- One appended gate block of the amplification loop. -/
inductive GateBlock
  | oracleGate
  | diffuserGate
deriving DecidableEq

/-- The gate blocks appended by
`for _ in range(iterations): append(oracle); append(diffuser)`. -/
noncomputable def groverSchedule (bits : ℕ) : List GateBlock :=
  (List.replicate (groverIterations bits) [GateBlock.oracleGate, GateBlock.diffuserGate]).flatten

/-- The scaled state vector after the full amplification loop. -/
noncomputable def groverFinalScaled (m : ℕ) (pattern : Fin (m + 1) → Bool) : Amp (m + 1) :=
  (groverStepScaled pattern)^[groverIterations (m + 1)] (uniformScaled m)

/-- The measurement distribution over the `2 ^ bits` classical labels
(label bit `i` is qubit `i`, as wired by `measure(range(bits), range(bits))`):
squared amplitude, normalised by one factor 2 per scaled Hadamard in the
circuit (`bits` initial ones plus `2 * bits + 6` per round). -/
noncomputable def measurementDist (m : ℕ) (pattern : Fin (m + 1) → Bool) : ℕ → ℚ :=
  fun k =>
    if k < 2 ^ (m + 1) then
      groverFinalScaled m pattern (fun i => k.testBit i.val) ^ 2 /
        2 ^ ((m + 1) + groverIterations (m + 1) * (2 * m + 6))
    else 0

/-- Python strings, as lists of (ASCII) characters. -/
abbrev Password := List Char

/-- The two failure modes of the search engine, as named by the spec:
`TargetNotFound` is the early return on `index == -1`; `InvalidUniverse`
covers the two uncaught exceptions on universes of size below 2, namely the
`math.log2(0)` domain error for an empty universe and the gate-on-qubit
index error raised while building the oracle on a 0-qubit circuit when
`bits = ceil(log2(1)) = 0`. -/
inductive SearchError
  | TargetNotFound
  | InvalidUniverse
deriving DecidableEq

/-- `password_list.index(target)` wrapped in try/except: the zero-based
index of the first occurrence, or `none` when absent (`index = -1`). -/
def indexOfTarget : List Password → Password → Option ℕ
  | [], _ => none
  | p :: rest, t => if p = t then some 0 else (indexOfTarget rest t).map (· + 1)

/-- `grover_search_simulation(password_list, target_password)` of
src/advanced.py and src/mostadvanced.py: compute `bits = ceil(log2(N))`
(raises for `N = 0`), look up the target index (early return, printing a
warning and producing no counts, when absent), build the circuit (raises
when `bits = 0`), run the amplification loop and sample; sampling is
modelled by the exact outcome distribution. -/
noncomputable def grover_search_simulation (univ : List Password) (target : Password) :
    Except SearchError (ℕ → ℚ) :=
  if univ.length = 0 then Except.error SearchError.InvalidUniverse
  else
    match indexOfTarget univ target with
    | none => Except.error SearchError.TargetNotFound
    | some index =>
      match Nat.clog 2 univ.length with
      | 0 => Except.error SearchError.InvalidUniverse
      | m + 1 => Except.ok (measurementDist m (binRep (m + 1) index))

namespace Main

/-- The symbol-set literal of `detect_charset_size` in src/main.py and
src/advanced.py. -/
def symbolChars : List Char :=
  ['!', '@', '#', '$', '%', '^', '&', '*', '(', ')', '-', '_', '+', '=', '~', '\x60',
   '[', ']', '\x7b', '\x7d', '|', ':', ';', '\x22', '\x27', '<', '>', ',', '.', '?', '/']

/-- `detect_charset_size(password)` of src/main.py (src/advanced.py is
identical): add 26 / 26 / 10 / 32 per character class present. -/
def detect_charset_size (p : Password) : ℕ :=
  (if p.any Char.isLower then 26 else 0) + (if p.any Char.isUpper then 26 else 0) +
    (if p.any Char.isDigit then 10 else 0) +
    (if p.any (fun c => symbolChars.contains c) then 32 else 0)

/-- `round(x, 2)`: nearest-integer rounding of `100 * x`, divided by 100. -/
noncomputable def roundTo2 (x : ℝ) : ℝ := (round (100 * x) : ℤ) / 100

/-- `password_entropy(password)` of src/main.py: 0 when the charset size is
0, else the length times `log2` of the charset size, rounded to 2 decimals. -/
noncomputable def password_entropy (p : Password) : ℝ :=
  if detect_charset_size p = 0 then 0
  else roundTo2 ((p.length : ℝ) * Real.logb 2 (detect_charset_size p))

/-- The findings appended by `analyze_patterns`, as a closed tagged type
standing for the reason strings of the source. -/
inductive Finding
  | Leaked
  | KeyboardPattern
  | CommonWord (w : Password)
  | RepeatedChars
  | DigitsOnly
  | LowercaseOnly
  | BoundarySymbol
  | PersonalInfo (s : Password)
deriving DecidableEq

/-- The fixed common-word list of src/main.py. -/
def common_words : List Password :=
  ["password".toList, "admin".toList, "omkar".toList, "qwerty".toList,
   "123456".toList, "iloveyou".toList]

/-- The regex `(.)\1{2,}`: some character repeated at least 3 times in a
row. -/
def hasTripleRepeat : List Char → Bool
  | a :: b :: c :: rest => (a == b && b == c) || hasTripleRepeat (b :: c :: rest)
  | _ => false

/-- The regex `^\d+$` used by `re.match`: non-empty and all digits. -/
def digitsOnlyCheck (p : Password) : Bool := !p.isEmpty && p.all Char.isDigit

/-- The regex `^[a-z]+$` used by `re.match`: non-empty and all lowercase
ASCII letters. -/
def lowercaseOnlyCheck (p : Password) : Bool := !p.isEmpty && p.all Char.isLower

/-- The boundary symbol set of src/main.py. -/
def boundarySymbols : List Char := ['!', '@', '#', '$', '%', '^', '&', '*']

/-- `password and (password[0] in "!@#$%^&*" or password[-1] in "!@#$%^&*")`. -/
def boundarySymbolCheck (p : Password) : Bool :=
  !p.isEmpty &&
    (boundarySymbols.contains (p.headD ' ') || boundarySymbols.contains (p.getLastD ' '))

/-- `analyze_patterns(password, personal_info_list)` of src/main.py.  The
leaked-dictionary and keyboard-pattern file lookups are external
collaborators and enter as injected Boolean flags; the remaining rules are
evaluated in the fixed source order and all matching rules fire. -/
def analyze_patterns (leaked keyboard : Bool) (p : Password) (personal : List Password) :
    List Finding :=
  (if leaked then [Finding.Leaked] else []) ++
    (if keyboard then [Finding.KeyboardPattern] else []) ++
    (common_words.filter
        (fun w => decide ((w.map Char.toLower) <:+: (p.map Char.toLower)))).map
      Finding.CommonWord ++
    (if hasTripleRepeat p then [Finding.RepeatedChars] else []) ++
    (if digitsOnlyCheck p then [Finding.DigitsOnly] else []) ++
    (if lowercaseOnlyCheck p then [Finding.LowercaseOnly] else []) ++
    (if boundarySymbolCheck p then [Finding.BoundarySymbol] else []) ++
    (personal.filter
        (fun i => !i.isEmpty && decide ((i.map Char.toLower) <:+: (p.map Char.toLower)))).map
      Finding.PersonalInfo

end Main

namespace MostAdvanced

/-- `string.punctuation`, the 32 ASCII punctuation characters. -/
def punctuationChars : List Char :=
  ['!', '\x22', '#', '$', '%', '&', '\x27', '(', ')', '*', '+', ',', '-', '.', '/',
   ':', ';', '<', '=', '>', '?', '@', '[', '\\', ']', '^', '_', '\x60', '\x7b', '|',
   '\x7d', '~']

/-- `detect_charset_size(password)` of src/mostadvanced.py: add
26 / 26 / 10 / `len(string.punctuation)` per character class present. -/
def detect_charset_size (p : Password) : ℕ :=
  (if p.any Char.isLower then 26 else 0) + (if p.any Char.isUpper then 26 else 0) +
    (if p.any Char.isDigit then 10 else 0) +
    (if p.any (fun c => punctuationChars.contains c) then punctuationChars.length else 0)

/-- `charset_size = detect_charset_size(password) or 1` in
`estimate_password_strength`: the charset size floored to 1. -/
def charset_size (p : Password) : ℕ := max (detect_charset_size p) 1

/-- `classical_guesses = charset_size ** length`, over the
arbitrary-precision integers of Python. -/
def classical_guesses (p : Password) : ℕ := charset_size p ^ p.length

/-- `quantum_guesses = math.isqrt(classical_guesses)`: the exact integer
(floor) square root. -/
def quantum_guesses (p : Password) : ℕ := Nat.sqrt (classical_guesses p)

end MostAdvanced

/-- The strength tiers returned by `estimate_password_strength`, in source
order: leaked, Weak, Moderate, Strong. -/
inductive StrengthTier
  | VeryWeakLeaked
  | Weak
  | Moderate
  | Strong
deriving DecidableEq

/-- The rating branch of `estimate_password_strength`: the leaked check
first, then the thresholds `1e6` and `1e9` on the quantum guess count
(Python compares an int with the exact floats `1e6` and `1e9` exactly).
Leaked-dictionary membership is the injected flag. -/
def strengthRating (leaked : Bool) (qg : ℕ) : StrengthTier :=
  if leaked then StrengthTier.VeryWeakLeaked
  else if qg < 1000000 then StrengthTier.Weak
  else if qg < 1000000000 then StrengthTier.Moderate
  else StrengthTier.Strong

/-- A 20-character password using all four character classes, giving the
full alphabet of size 94. -/
def pw94 : Password :=
  ['a', 'B', '3', '!', 'a', 'a', 'a', 'a', 'a', 'a', 'a', 'a', 'a', 'a', 'a', 'a',
   'a', 'a', 'a', 'a']

/-- One `random.random()` value in `[0, 1)`, derived from one draw of the
integer randomness stream and discretised to thousandths: the draw `k`
stands for the float `(k % 1000) / 1000`, so the source comparisons
`random.random() < 0.5` and `random.random() < 0.3` become comparisons
with 500 and 300. -/
def rngFloat (k : ℕ) : ℕ := k % 1000

/-- The leetspeak substitution dictionary of `suggest_improved_variants`. -/
def subLeet (c : Char) : Option Char :=
  if c = 'a' then some '@'
  else if c = 's' then some '$'
  else if c = 'i' then some '1'
  else if c = 'o' then some '0'
  else if c = 'e' then some '3'
  else if c = 'l' then some '1'
  else if c = 't' then some '7'
  else none

/-- The insertion symbol list of `suggest_improved_variants`. -/
def symbols : List Char :=
  ['!', '@', '#', '$', '%', '^', '&', '*', '(', ')', '_', '-', '+', '=', '<', '>', '?', '/']

/-- The ten digit characters produced by `str(random.randint(0, 9))`. -/
def digitChars : List Char := ['0', '1', '2', '3', '4', '5', '6', '7', '8', '9']

/-- `random.choice(symbols)`: one stream draw reduced modulo the length. -/
def pickSymbol (k : ℕ) : Char :=
  symbols.get ⟨k % symbols.length, Nat.mod_lt _ (by decide)⟩

/-- `str(random.randint(0, 9))`: one stream draw reduced modulo 10. -/
def pickDigit (k : ℕ) : Char :=
  digitChars.get ⟨k % digitChars.length, Nat.mod_lt _ (by decide)⟩

/-- `list.insert(i, c)` of Python: insert `c` before position `i`,
appending at the end when `i` reaches past the length. -/
def insertAt (l : List Char) (i : ℕ) (c : Char) : List Char :=
  l.take i ++ c :: l.drop i

/-- The per-character transformation loop of `suggest_improved_variants`.
Randomness is an integer stream `rng` read at an advancing cursor; each
`random.random()` call consumes one draw.  A substitutable character first
draws the substitution coin (threshold 0.5) and, when it keeps the
character, draws the uppercase coin (threshold 0.3, short-circuit
evaluation); any other character draws only the uppercase coin. -/
def transformChars (rng : ℕ → ℕ) : List Char → ℕ → List Char × ℕ
  | [], c => ([], c)
  | ch :: rest, c =>
    match subLeet ch.toLower with
    | some r =>
      if rngFloat (rng c) < 500 then
        let t := transformChars rng rest (c + 1)
        (r :: t.1, t.2)
      else
        let u := if rngFloat (rng (c + 1)) < 300 then ch.toUpper else ch
        let t := transformChars rng rest (c + 2)
        (u :: t.1, t.2)
    | none =>
      let u := if rngFloat (rng c) < 300 then ch.toUpper else ch
      let t := transformChars rng rest (c + 1)
      (u :: t.1, t.2)

/-- One loop body of `suggest_improved_variants`: transform the characters,
insert a random symbol at a random position, then insert a random digit at
a random position (`random.randint(0, len(pwd))` is one draw reduced modulo
`len + 1`); returns the variant and the advanced cursor. -/
def makeVariant (rng : ℕ → ℕ) (pwd : Password) (c : ℕ) : Password × ℕ :=
  let t := transformChars rng pwd c
  let p1 := rng t.2 % (t.1.length + 1)
  let s := pickSymbol (rng (t.2 + 1))
  let w := insertAt t.1 p1 s
  let p2 := rng (t.2 + 2) % (w.length + 1)
  let d := pickDigit (rng (t.2 + 3))
  (insertAt w p2 d, t.2 + 4)

/-- The collection loop `while len(variants) < count`, with explicit fuel:
the source has no retry cap, so a run that has not collected `count`
distinct variants within the given fuel is `none` (the source would still
be looping at that point). -/
def suggestLoop (rng : ℕ → ℕ) (pwd : Password) (count : ℕ) :
    ℕ → ℕ → Finset Password → Option (Finset Password)
  | 0, _, acc => if count ≤ acc.card then some acc else none
  | f + 1, c, acc =>
    if count ≤ acc.card then some acc
    else
      let mv := makeVariant rng pwd c
      suggestLoop rng pwd count f mv.2 (insert mv.1 acc)

/-- `suggest_improved_variants(password, count)` of src/main.py
(src/advanced.py and src/mostadvanced.py carry the identical function):
collect `count` distinct variants starting from the empty set, cursor 0. -/
def suggest_improved_variants (rng : ℕ → ℕ) (fuel : ℕ) (pwd : Password) (count : ℕ) :
    Option (Finset Password) :=
  suggestLoop rng pwd count fuel 0 ∅

/-- The hits of `detect_personal_info_patterns`, one tag per regex rule. -/
inductive PersonalHit
  | year
  | fullDate
  | phone
deriving DecidableEq

/-- A word character of the regex `\b` boundary: `[A-Za-z0-9_]` (ASCII). -/
def isWordChar (c : Char) : Bool := c.isAlphanum || c = '_'

/-- Does the regex `(19[0-9]{2}|20[0-9]{2})` match at the front? -/
def yearStart (s : List Char) : Bool :=
  match s with
  | c1 :: c2 :: c3 :: c4 :: _ =>
    ((c1 == '1' && c2 == '9') || (c1 == '2' && c2 == '0')) && c3.isDigit && c4.isDigit
  | _ => false

/-- `re.search` of `(19[0-9]{2}|20[0-9]{2})`: a match at some position. -/
def hasYearPattern : List Char → Bool
  | [] => false
  | c :: rest => yearStart (c :: rest) || hasYearPattern rest

/-- The `\b` test next to a digit run: the outside neighbour, when present,
must not be a word character. -/
def boundaryOk : Option Char → Bool
  | none => true
  | some c => !isWordChar c

/-- Does `\d{n}\b` match at the front: the next `n` characters exist, are
all digits, and the character after them (if any) is not a word character. -/
def digitRunHere (n : ℕ) (s : List Char) : Bool :=
  ((s.take n).length == n) && (s.take n).all Char.isDigit && boundaryOk (s.drop n).head?

/-- `re.search` of `\b\d{n}\b` scanning from a position whose preceding
character is `prev` (`none` at the start of the string). -/
def hasRunFrom (n : ℕ) (prev : Option Char) : List Char → Bool
  | [] => false
  | c :: rest => (boundaryOk prev && digitRunHere n (c :: rest)) || hasRunFrom n (some c) rest

/-- `re.search` of `\b\d{n}\b` over the whole string. -/
def hasBoundedDigitRun (n : ℕ) (s : List Char) : Bool := hasRunFrom n none s

/-- `detect_personal_info_patterns(password)` of src/main.py (identical
regexes in src/advanced.py, src/mostadvanced.py, src/mostadvanced_tool.py):
the three regex rules in fixed order, returned as a separate list. -/
def detect_personal_info_patterns (p : Password) : List PersonalHit :=
  (if hasYearPattern p then [PersonalHit.year] else []) ++
    (if hasBoundedDigitRun 8 p then [PersonalHit.fullDate] else []) ++
    (if hasBoundedDigitRun 10 p then [PersonalHit.phone] else [])

/-- Specification predicate for the year rule, following the claim: the
password contains a four-character substring 19xx or 20xx with xx digits. -/
def YearProp (s : List Char) : Prop :=
  ∃ (l r : List Char) (c1 c2 c3 c4 : Char),
    s = l ++ c1 :: c2 :: c3 :: c4 :: r ∧
      ((c1 = '1' ∧ c2 = '9') ∨ (c1 = '2' ∧ c2 = '0')) ∧
      c3.isDigit = true ∧ c4.isDigit = true

/-- Specification predicate for the digit-run rules, following the claim:
the password splits as `l ++ m ++ r` where `m` is a run of exactly `n`
digits and both outside neighbours (when present) are non-word characters. -/
def BoundedRunProp (n : ℕ) (s : List Char) : Prop :=
  ∃ l m r : List Char,
    s = l ++ m ++ r ∧ m.length = n ∧ (∀ c ∈ m, c.isDigit = true) ∧
      boundaryOk l.getLast? = true ∧ boundaryOk r.head? = true

/-- The character preceding the current scan position: the last character
of the consumed part `l` when non-empty, else the character before `l`. -/
def lastOr (prev : Option Char) (l : List Char) : Option Char :=
  match l.getLast? with
  | some c => some c
  | none => prev

section OracleLemmas

/-- Acting with the commuting X gates selected by a duplicate-free list of
positions evaluates the amplitude at the input with those positions flipped
wherever the pattern bit is 0. -/
theorem xs_foldl_eq {n : ℕ} (pattern : Fin n → Bool) (l : List (Fin n)) (hl : l.Nodup)
    (v : Amp n) (s : QState n) :
    (l.foldl (fun w i => if pattern i then w else applyX i w) v) s
      = v (fun i => if i ∈ l ∧ pattern i = false then !(s i) else s i) := by
  induction l generalizing v s with
  | nil => simp
  | cons a tl ih =>
    rcases List.nodup_cons.mp hl with ⟨ha, htl⟩
    rw [List.foldl_cons, ih htl]
    by_cases hpa : pattern a = true
    · simp only [hpa, if_true]
      congr 1
      funext i
      by_cases hia : i = a
      · subst hia
        simp [ha, hpa]
      · simp [List.mem_cons, hia]
    · simp only [Bool.not_eq_true] at hpa
      simp only [hpa, Bool.false_eq_true, if_false, applyX]
      congr 1
      funext i
      rw [Function.update_apply]
      by_cases hia : i = a
      · subst hia
        simp [ha, hpa]
      · simp [List.mem_cons, hia]

/-- The X-sandwich layer acts on basis states by `flipZeros`. -/
theorem xsForZeros_eq {n : ℕ} (pattern : Fin n → Bool) (v : Amp n) (s : QState n) :
    xsForZeros pattern v s = v (flipZeros pattern s) := by
  rw [xsForZeros, xs_foldl_eq pattern _ (List.nodup_finRange n)]
  congr 1
  funext i
  by_cases hp : pattern i = true <;> simp [flipZeros, hp]

/-- `flipZeros` is an involution. -/
theorem flipZeros_flipZeros {n : ℕ} (pattern : Fin n → Bool) (s : QState n) :
    flipZeros pattern (flipZeros pattern s) = s := by
  funext i
  by_cases hp : pattern i = true <;> simp [flipZeros, hp]

/-- A basis state is all-ones after `flipZeros` exactly when it equals the
pattern itself. -/
theorem flipZeros_all_true_iff {n : ℕ} (pattern : Fin n → Bool) (s : QState n) :
    (∀ i, flipZeros pattern s i = true) ↔ s = pattern := by
  constructor
  · intro h
    funext i
    have hi := h i
    by_cases hp : pattern i = true <;>
      simp [flipZeros, hp] at hi <;> simp [hi, hp]
  · intro h i
    rw [h]
    by_cases hp : pattern i = true <;> simp [flipZeros, hp]

/-- The control condition of the oracle MCX reads all qubits except the
last one. -/
theorem oracleControls_all_iff {m : ℕ} (x : QState (m + 1)) :
    ((oracleControls m).all fun j => x j) = true ↔ ∀ j : Fin m, x j.castSucc = true := by
  simp [oracleControls, List.all_eq_true]

/-- Updating the last qubit does not change the control condition. -/
theorem oracleControls_all_update {m : ℕ} (s : QState (m + 1)) (b : Bool) :
    ((oracleControls m).all fun j => Function.update s (Fin.last m) b j)
      = ((oracleControls m).all fun j => s j) := by
  rcases hb : (oracleControls m).all fun j => s j with _ | _
  · rw [Bool.eq_false_iff]
    intro hcon
    rw [oracleControls_all_iff] at hcon
    have : ((oracleControls m).all fun j => s j) = true := by
      rw [oracleControls_all_iff]
      intro j
      have := hcon j
      rwa [Function.update_noteq (Fin.castSucc_lt_last j).ne] at this
    rw [this] at hb
    exact Bool.noConfusion hb
  · rw [oracleControls_all_iff] at hb ⊢
    intro j
    rw [Function.update_noteq (Fin.castSucc_lt_last j).ne]
    exact hb j

/-- The H / MCX / H core on the last qubit is (twice) the multi-controlled
phase flip: it negates exactly the all-ones amplitude. -/
theorem mcz_eq {m : ℕ} (v : Amp (m + 1)) (s : QState (m + 1)) :
    applyH2 (Fin.last m)
        (applyMCX (oracleControls m) (Fin.last m) (applyH2 (Fin.last m) v)) s
      = 2 * (if ∀ i, s i = true then -(v s) else v s) := by
  have hLup : ∀ (b c : Bool),
      Function.update (Function.update s (Fin.last m) b) (Fin.last m) c
        = Function.update s (Fin.last m) c := fun b c => Function.update_idem ..
  have hLval : ∀ (b : Bool), Function.update s (Fin.last m) b (Fin.last m) = b :=
    fun b => Function.update_same ..
  rcases hb : (oracleControls m).all fun j => s j with _ | _
  · -- controls not all one: the block acts as H * H = 2 * id on the last qubit
    have hnot : ¬ ∀ i, s i = true := by
      intro hall
      have : ((oracleControls m).all fun j => s j) = true := by
        rw [oracleControls_all_iff]; intro j; exact hall _
      rw [this] at hb; exact Bool.noConfusion hb
    simp only [applyH2, applyMCX, oracleControls_all_update, hb, Bool.false_eq_true,
      if_false, hLup, hLval, if_neg hnot]
    rcases hsL : s (Fin.last m) with _ | _
    · have hs0 : Function.update s (Fin.last m) false = s := by
        rw [← hsL]; exact Function.update_eq_self ..
      rw [hs0]
      simp only [hsL, Bool.false_eq_true, if_false, if_true]
      ring
    · have hs1 : Function.update s (Fin.last m) true = s := by
        rw [← hsL]; exact Function.update_eq_self ..
      rw [hs1]
      simp only [hsL, if_true, Bool.false_eq_true, if_false]
      ring
  · -- controls all one: the inner MCX swaps the two amplitudes
    simp only [applyH2, applyMCX, oracleControls_all_update, hb, if_true, hLup, hLval,
      Bool.not_false, Bool.not_true]
    rcases hsL : s (Fin.last m) with _ | _
    · have hnot : ¬ ∀ i, s i = true := by
        intro hall
        rw [hall (Fin.last m)] at hsL
        exact Bool.noConfusion hsL
      have hs0 : Function.update s (Fin.last m) false = s := by
        rw [← hsL]; exact Function.update_eq_self ..
      rw [hs0]
      simp only [hsL, Bool.false_eq_true, if_false, if_neg hnot]
      ring
    · have hall : ∀ i, s i = true := by
        intro i
        induction i using Fin.lastCases with
        | last => exact hsL
        | cast j => exact (oracleControls_all_iff s).mp hb j
      have hs1 : Function.update s (Fin.last m) true = s := by
        rw [← hsL]; exact Function.update_eq_self ..
      rw [hs1]
      simp only [hsL, if_true, Bool.false_eq_true, if_false, if_pos hall]
      ring

/-- The full unitary oracle negates exactly the amplitude of the pattern
state and fixes every other amplitude. -/
theorem grover_oracle_eq {m : ℕ} (pattern : Fin (m + 1) → Bool) (v : Amp (m + 1))
    (s : QState (m + 1)) :
    grover_oracle pattern v s = if s = pattern then -(v s) else v s := by
  rw [grover_oracle, oracleScaled, xsForZeros_eq, mcz_eq, xsForZeros_eq,
    flipZeros_flipZeros]
  by_cases hsp : s = pattern
  · rw [if_pos ((flipZeros_all_true_iff pattern s).mpr hsp), if_pos hsp]
    ring
  · rw [if_neg (fun h => hsp ((flipZeros_all_true_iff pattern s).mp h)), if_neg hsp]
    ring

end OracleLemmas

/-- `ceil(log2(6)) = 3`. -/
theorem clog_two_six : Nat.clog 2 6 = 3 := by
  have h1 : Nat.clog 2 6 ≤ 3 := (Nat.le_pow_iff_clog_le (by norm_num)).mp (by norm_num)
  have h2 : ¬ Nat.clog 2 6 ≤ 2 := by
    intro h
    exact absurd ((Nat.le_pow_iff_clog_le (by norm_num)).mpr h) (by norm_num)
  omega

/-- Claim C1: for every universe of size `N ≥ 2` with
`bits = ceil(log2 N)` and every target index below `2 ^ bits`, the oracle
built by the search engine (X on each qubit whose bit of the index pattern
is 0, then H / multi-controlled-X / H on the last qubit, then the same X
layer), viewed as a transformation of the amplitude vector over the
`2 ^ bits` basis states, negates exactly the amplitude of the basis state
labelled by the binary representation of the index (qubit `i` carrying
character `i` of `format(index, f"0{bits}b")`) and leaves every other
amplitude unchanged. -/
theorem c1_oracle_phase_flip (N index m : ℕ) (hN : 2 ≤ N)
    (hbits : Nat.clog 2 N = m + 1) (hindex : index < 2 ^ (m + 1))
    (v : Amp (m + 1)) (s : QState (m + 1)) :
    grover_oracle (binRep (m + 1) index) v s
      = if s = binRep (m + 1) index then -(v s) else v s :=
  grover_oracle_eq (binRep (m + 1) index) v s

/-- Witness for C1 at the spec example: universe size 6, bits 3, index 5. -/
theorem c1_oracle_phase_flip_witness :
    grover_oracle (binRep 3 5) (fun _ => (1 : ℚ)) (binRep 3 5) = -1 := by
  have h := c1_oracle_phase_flip 6 5 2 (by norm_num) clog_two_six (by norm_num)
    (fun _ => (1 : ℚ)) (binRep 3 5)
  simpa using h

/-- Flattening `n` copies of a block list multiplies its length by `n`. -/
theorem flatten_replicate_length (n : ℕ) (l : List GateBlock) :
    ((List.replicate n l).flatten).length = n * l.length := by
  induction n with
  | zero => simp
  | succ k ih => simp [List.replicate_succ, ih, Nat.succ_mul]; omega

/-- Flattening `n` copies of a block list multiplies each count by `n`. -/
theorem flatten_replicate_count (n : ℕ) (l : List GateBlock) (a : GateBlock) :
    ((List.replicate n l).flatten).count a = n * l.count a := by
  induction n with
  | zero => simp
  | succ k ih => simp [List.replicate_succ, List.count_append, ih, Nat.succ_mul]; omega

/-- `int((pi / 4) * sqrt(2 ** 3)) = 2`. -/
theorem groverIterations_three : groverIterations 3 = 2 := by
  have h8 : ((2 : ℝ) ^ 3) = 8 := by norm_num
  rw [groverIterations, h8]
  have hsq : Real.sqrt 8 ^ 2 = 8 := Real.sq_sqrt (by norm_num)
  have hnn : (0 : ℝ) ≤ Real.sqrt 8 := Real.sqrt_nonneg 8
  have hlo : (2.82 : ℝ) < Real.sqrt 8 := by nlinarith
  have hhi : Real.sqrt 8 < 2.83 := by nlinarith
  have hpilo := Real.pi_gt_3141592
  have hpihi := Real.pi_lt_315
  have hx : (0 : ℝ) ≤ Real.pi / 4 * Real.sqrt 8 := by positivity
  rw [Nat.floor_eq_iff hx]
  constructor
  · push_cast
    nlinarith
  · push_cast
    nlinarith

/-- Claim C2: the search engine appends the (oracle, diffuser) pair exactly
`iterations = floor((pi/4) * sqrt(2 ^ bits))` times; in particular for a
universe of 6 candidates, `bits = 3` and the pair is applied exactly
2 times. -/
theorem c2_iteration_count :
    Nat.clog 2 6 = 3 ∧ groverIterations 3 = 2 ∧
      ∀ bits : ℕ,
        (groverSchedule bits).length = 2 * groverIterations bits ∧
          (groverSchedule bits).count GateBlock.oracleGate = groverIterations bits ∧
          (groverSchedule bits).count GateBlock.diffuserGate = groverIterations bits := by
  refine ⟨clog_two_six, groverIterations_three, fun bits => ⟨?_, ?_, ?_⟩⟩
  · rw [groverSchedule, flatten_replicate_length]
    simp [Nat.mul_comm]
  · rw [groverSchedule, flatten_replicate_count]
    simp
  · rw [groverSchedule, flatten_replicate_count]
    simp

/-- The index lookup returns `none` exactly on absent targets. -/
theorem indexOfTarget_eq_none_iff (l : List Password) (t : Password) :
    indexOfTarget l t = none ↔ t ∉ l := by
  induction l with
  | nil => simp [indexOfTarget]
  | cons p rest ih =>
    by_cases hp : p = t
    · subst hp
      simp [indexOfTarget]
    · rw [indexOfTarget, if_neg hp, Option.map_eq_none', ih, List.mem_cons]
      constructor
      · intro h hmem
        rcases hmem with h1 | h2
        · exact hp h1.symm
        · exact h h2
      · intro h hm
        exact h (Or.inr hm)

/-- Claim C3: the search demo fails exactly when the target is absent from
the universe (the TargetNotFound early return) or the universe has fewer
than 2 elements (the uncaught `math.log2(0)` / 0-qubit-circuit errors, the
failure the spec names InvalidUniverse); in either failure case no
measurement counts are produced, and for every other input an outcome
distribution is returned. -/
theorem c3_search_failure_modes (u : List Password) (t : Password) :
    ((∃ e, grover_search_simulation u t = Except.error e) ↔ t ∉ u ∨ u.length < 2) ∧
      ((∃ d, grover_search_simulation u t = Except.ok d) ↔ t ∈ u ∧ 2 ≤ u.length) := by
  by_cases h0 : u.length = 0
  · have hnil : u = [] := List.length_eq_zero.mp h0
    subst hnil
    simp [grover_search_simulation]
  · have hne : ¬ u = [] := fun h => h0 (by rw [h]; rfl)
    rcases hfind : indexOfTarget u t with _ | idx
    · have hmem : t ∉ u := (indexOfTarget_eq_none_iff u t).mp hfind
      simp [grover_search_simulation, if_neg h0, hfind, hmem, hne]
    · have hmem : t ∈ u := by
        by_contra hmem
        rw [← indexOfTarget_eq_none_iff u t] at hmem
        rw [hmem] at hfind
        exact Option.noConfusion hfind
      by_cases h1 : u.length = 1
      · have hclog : Nat.clog 2 u.length = 0 := by
          rw [h1]
          exact Nat.clog_one_right 2
        simp [grover_search_simulation, if_neg h0, hfind, hclog, hmem, h1]
      · have h2 : 2 ≤ u.length := by omega
        have hpos : 0 < Nat.clog 2 u.length := Nat.clog_pos (by norm_num) h2
        obtain ⟨m, hm⟩ : ∃ m, Nat.clog 2 u.length = m + 1 :=
          ⟨Nat.clog 2 u.length - 1, by omega⟩
        have h2' : ¬ u.length < 2 := by omega
        simp [grover_search_simulation, if_neg h0, hfind, hm, hmem, h2, h2', hne]

/-- Claim C4: the classical guess count is the charset-model alphabet size
floored to 1, raised to the password length, over arbitrary-precision
integers; the quantum guess count is exactly the floor of its square root;
and the pair (alphabetSize 94, length 20) is computed without overflow or
precision loss. -/
theorem c4_guess_space (p : Password) :
    MostAdvanced.classical_guesses p
        = max (MostAdvanced.detect_charset_size p) 1 ^ p.length ∧
      MostAdvanced.quantum_guesses p * MostAdvanced.quantum_guesses p
        ≤ MostAdvanced.classical_guesses p ∧
      MostAdvanced.classical_guesses p
        < (MostAdvanced.quantum_guesses p + 1) * (MostAdvanced.quantum_guesses p + 1) ∧
      MostAdvanced.classical_guesses pw94 = 94 ^ 20 ∧
      MostAdvanced.quantum_guesses pw94 = 94 ^ 10 := by
  have hc : MostAdvanced.charset_size pw94 = 94 := by decide
  have hlen : pw94.length = 20 := rfl
  have hcl : MostAdvanced.classical_guesses pw94 = 94 ^ 20 := by
    rw [MostAdvanced.classical_guesses, hc, hlen]
  refine ⟨rfl, Nat.sqrt_le _, Nat.lt_succ_sqrt _, hcl, ?_⟩
  have h2 : MostAdvanced.classical_guesses pw94 = 94 ^ 10 * 94 ^ 10 := by
    rw [hcl, ← pow_add]
  rw [MostAdvanced.quantum_guesses, h2, Nat.sqrt_eq]

/-- Claim C5: the strength classifier returns VeryWeakLeaked whenever the
leaked-dictionary flag is set, regardless of the guess count; otherwise it
thresholds the quantum guess count in order against 1e6 and 1e9, so that
999999 gives Weak, 1000000 gives Moderate and 1000000000 gives Strong. -/
theorem c5_strength_tiers :
    (∀ q : ℕ, strengthRating true q = StrengthTier.VeryWeakLeaked) ∧
      (∀ q : ℕ, q < 1000000 → strengthRating false q = StrengthTier.Weak) ∧
      (∀ q : ℕ, 1000000 ≤ q → q < 1000000000 →
        strengthRating false q = StrengthTier.Moderate) ∧
      (∀ q : ℕ, 1000000000 ≤ q → strengthRating false q = StrengthTier.Strong) ∧
      strengthRating false 999999 = StrengthTier.Weak ∧
      strengthRating false 1000000 = StrengthTier.Moderate ∧
      strengthRating false 1000000000 = StrengthTier.Strong := by
  refine ⟨fun q => rfl, fun q h => ?_, fun q h1 h2 => ?_, fun q h => ?_,
    by decide, by decide, by decide⟩
  · simp [strengthRating, h]
  · have h1' : ¬ q < 1000000 := by omega
    simp [strengthRating, h1', h2]
  · have h1' : ¬ q < 1000000 := by omega
    have h2' : ¬ q < 1000000000 := by omega
    simp [strengthRating, h1', h2']

/-- Witness for C5 at concrete guess counts in each band. -/
theorem c5_strength_tiers_witness :
    strengthRating false 42 = StrengthTier.Weak ∧
      strengthRating false 500000000 = StrengthTier.Moderate ∧
      strengthRating false 2000000000 = StrengthTier.Strong :=
  ⟨c5_strength_tiers.2.1 42 (by norm_num),
   c5_strength_tiers.2.2.1 500000000 (by norm_num) (by norm_num),
   c5_strength_tiers.2.2.2.1 2000000000 (by norm_num)⟩

/-- Claim C6: entropy is the length times log2 of the alphabet size,
rounded to 2 decimals, and 0 when the alphabet size is 0; the empty
password has alphabet size 0 and entropy 0; entropy is non-negative for
every password. -/
theorem c6_entropy :
    Main.detect_charset_size [] = 0 ∧
      Main.password_entropy [] = 0 ∧
      (∀ p : Password, 0 ≤ Main.password_entropy p) ∧
      (∀ p : Password, Main.detect_charset_size p = 0 → Main.password_entropy p = 0) ∧
      (∀ p : Password, Main.detect_charset_size p ≠ 0 →
        Main.password_entropy p
          = Main.roundTo2 ((p.length : ℝ) * Real.logb 2 (Main.detect_charset_size p))) := by
  have hzero : ∀ p : Password, Main.detect_charset_size p = 0 → Main.password_entropy p = 0 :=
    fun p h => by rw [Main.password_entropy, if_pos h]
  have hformula : ∀ p : Password, Main.detect_charset_size p ≠ 0 →
      Main.password_entropy p
        = Main.roundTo2 ((p.length : ℝ) * Real.logb 2 (Main.detect_charset_size p)) :=
    fun p h => by rw [Main.password_entropy, if_neg h]
  refine ⟨rfl, hzero [] rfl, fun p => ?_, hzero, hformula⟩
  by_cases h : Main.detect_charset_size p = 0
  · rw [hzero p h]
  · rw [hformula p h]
    have h1 : (1 : ℝ) ≤ (Main.detect_charset_size p : ℝ) := by
      exact_mod_cast Nat.one_le_iff_ne_zero.mpr h
    have hlog : 0 ≤ Real.logb 2 (Main.detect_charset_size p) :=
      Real.logb_nonneg (by norm_num) h1
    have hx : 0 ≤ (p.length : ℝ) * Real.logb 2 (Main.detect_charset_size p) :=
      mul_nonneg (by positivity) hlog
    rw [Main.roundTo2]
    have hr : (0 : ℤ) ≤
        round ((100 : ℝ) * ((p.length : ℝ) * Real.logb 2 (Main.detect_charset_size p))) := by
      rw [round_eq]
      exact Int.floor_nonneg.mpr (by nlinarith)
    exact div_nonneg (by exact_mod_cast hr) (by norm_num)

/-- Witness for C6 at a one-digit password with alphabet size 10. -/
theorem c6_entropy_witness :
    Main.password_entropy ['1']
      = Main.roundTo2 ((List.length ['1'] : ℝ)
          * Real.logb 2 (Main.detect_charset_size ['1'])) :=
  c6_entropy.2.2.2.2 ['1'] (by decide)

/-- The per-character transformation keeps the length. -/
theorem transformChars_length (rng : ℕ → ℕ) (l : List Char) (c : ℕ) :
    (transformChars rng l c).1.length = l.length := by
  induction l generalizing c with
  | nil => simp [transformChars]
  | cons ch rest ih =>
    cases hsub : subLeet ch.toLower with
    | none => simp [transformChars, hsub, ih]
    | some r =>
      by_cases h : rngFloat (rng c) < 500
      · simp [transformChars, hsub, h, ih]
      · simp [transformChars, hsub, h, ih]

/-- Inserting one character grows the length by exactly one. -/
theorem insertAt_length (l : List Char) (i : ℕ) (c : Char) :
    (insertAt l i c).length = l.length + 1 := by
  simp [insertAt]
  omega

/-- The inserted character is a member of the result. -/
theorem mem_insertAt_self (l : List Char) (i : ℕ) (c : Char) : c ∈ insertAt l i c := by
  simp [insertAt]

/-- Insertion preserves the existing members. -/
theorem mem_insertAt_of_mem (l : List Char) (i : ℕ) (c x : Char) (hx : x ∈ l) :
    x ∈ insertAt l i c := by
  rw [insertAt]
  rw [← List.take_append_drop i l] at hx
  rcases List.mem_append.mp hx with h | h
  · exact List.mem_append.mpr (Or.inl h)
  · exact List.mem_append.mpr (Or.inr (List.mem_cons_of_mem _ h))

/-- The picked symbol is one of the insertion symbols. -/
theorem pickSymbol_mem (k : ℕ) : pickSymbol k ∈ symbols := List.get_mem _ _ _

/-- The picked digit character is one of the ten digits. -/
theorem pickDigit_mem (k : ℕ) : pickDigit k ∈ digitChars := List.get_mem _ _ _

/-- Every generated variant is exactly two characters longer than the
password and contains one insertion symbol and one digit character. -/
theorem makeVariant_shape (rng : ℕ → ℕ) (pwd : Password) (c : ℕ) :
    (makeVariant rng pwd c).1.length = pwd.length + 2 ∧
      (∃ x ∈ (makeVariant rng pwd c).1, x ∈ symbols) ∧
      ∃ x ∈ (makeVariant rng pwd c).1, x ∈ digitChars := by
  simp only [makeVariant]
  refine ⟨?_, ?_, ?_⟩
  · rw [insertAt_length, insertAt_length, transformChars_length]
  · exact ⟨_, mem_insertAt_of_mem _ _ _ _ (mem_insertAt_self _ _ _), pickSymbol_mem _⟩
  · exact ⟨_, mem_insertAt_self _ _ _, pickDigit_mem _⟩

/-- Invariant of the collection loop: starting below the requested count
with elements satisfying `P`, a successful run returns exactly `count`
elements all satisfying `P`, provided every freshly generated variant
satisfies `P`. -/
theorem suggestLoop_spec (rng : ℕ → ℕ) (pwd : Password) (count : ℕ)
    (P : Password → Prop) (hP : ∀ c : ℕ, P (makeVariant rng pwd c).1) :
    ∀ (fuel c : ℕ) (acc res : Finset Password), acc.card ≤ count →
      (∀ v ∈ acc, P v) → suggestLoop rng pwd count fuel c acc = some res →
      res.card = count ∧ ∀ v ∈ res, P v := by
  intro fuel
  induction fuel with
  | zero =>
    intro c acc res hcard hacc hres
    rw [suggestLoop] at hres
    by_cases hle : count ≤ acc.card
    · rw [if_pos hle] at hres
      obtain rfl : acc = res := Option.some.inj hres
      exact ⟨le_antisymm hcard hle, hacc⟩
    · rw [if_neg hle] at hres
      exact Option.noConfusion hres
  | succ f ih =>
    intro c acc res hcard hacc hres
    rw [suggestLoop] at hres
    by_cases hle : count ≤ acc.card
    · rw [if_pos hle] at hres
      obtain rfl : acc = res := Option.some.inj hres
      exact ⟨le_antisymm hcard hle, hacc⟩
    · rw [if_neg hle] at hres
      refine ih _ _ _ ?_ ?_ hres
      · have := Finset.card_insert_le (makeVariant rng pwd c).1 acc
        omega
      · intro v hv
        rcases Finset.mem_insert.mp hv with h | h
        · rw [h]
          exact hP c
        · exact hacc v h

/-- Claim C7: whenever the variant collector returns (termination of the
uncapped source loop is settled separately under C8), the result of
`suggest_improved_variants(p, 5)` is exactly 5 pairwise-distinct strings,
each exactly 2 characters longer than `p`: one inserted symbol and one
inserted digit. -/
theorem c7_variants (pwd : Password) (rng : ℕ → ℕ) (fuel : ℕ) (res : Finset Password)
    (h : suggest_improved_variants rng fuel pwd 5 = some res) :
    res.card = 5 ∧ ∀ v ∈ res,
      v.length = pwd.length + 2 ∧ (∃ x ∈ v, x ∈ symbols) ∧ ∃ x ∈ v, x ∈ digitChars :=
  suggestLoop_spec rng pwd 5
    (fun v => v.length = pwd.length + 2 ∧ (∃ x ∈ v, x ∈ symbols) ∧ ∃ x ∈ v, x ∈ digitChars)
    (fun c => makeVariant_shape rng pwd c) fuel 0 ∅ res (by simp) (by simp) h

/-- Witness for C7: a concrete terminating run on the password "a". -/
theorem c7_variants_witness :
    ((suggest_improved_variants (fun n => n) 8 ['a'] 5).getD ∅).card = 5 :=
  (c7_variants ['a'] (fun n => n) 8
    ((suggest_improved_variants (fun n => n) 8 ['a'] 5).getD ∅) (by decide)).1

/-- Under the constant-zero randomness stream, one loop body on the empty
password always produces the same two-character variant. -/
theorem makeVariant_zero (c : ℕ) :
    makeVariant (fun _ => 0) [] c = (['0', '!'], c + 4) := rfl

/-- Under the constant-zero stream the accumulated set stays a singleton,
so the loop never returns, whatever the fuel. -/
theorem suggestLoop_zero_stuck (fuel : ℕ) :
    ∀ c : ℕ, suggestLoop (fun _ => 0) [] 5 fuel c {['0', '!']} = none := by
  induction fuel with
  | zero =>
    intro c
    rw [suggestLoop, if_neg (by simp)]
  | succ f ih =>
    intro c
    have hins : insert (makeVariant (fun _ => 0) [] c).1 ({['0', '!']} : Finset Password)
        = {['0', '!']} := by
      rw [makeVariant_zero]
      exact Finset.insert_eq_self.mpr (Finset.mem_singleton_self _)
    rw [suggestLoop, if_neg (by simp)]
    show suggestLoop (fun _ => 0) [] 5 f (makeVariant (fun _ => 0) [] c).2
        (insert (makeVariant (fun _ => 0) [] c).1 {['0', '!']}) = none
    rw [hins, makeVariant_zero]
    exact ih (c + 4)

/-- Claim C8, refuted on the code: the collection loop of
`suggest_improved_variants` has no retry cap, and under the degenerate
randomness stream that repeats the same draws forever it never terminates
on the empty password — for every fuel bound the loop is still running. -/
theorem c8_loop_unbounded (fuel : ℕ) :
    suggest_improved_variants (fun _ => 0) fuel [] 5 = none := by
  cases fuel with
  | zero =>
    rw [suggest_improved_variants, suggestLoop, if_neg (by simp)]
  | succ f =>
    rw [suggest_improved_variants, suggestLoop, if_neg (by simp)]
    show suggestLoop (fun _ => 0) [] 5 f (makeVariant (fun _ => 0) [] 0).2
        (insert (makeVariant (fun _ => 0) [] 0).1 ∅) = none
    rw [makeVariant_zero]
    exact suggestLoop_zero_stuck f (0 + 4)

/-- Membership in a conditional singleton list. -/
theorem mem_if_singleton {α : Type} (b : Prop) [Decidable b] (x y : α) :
    (x ∈ if b then [y] else []) ↔ b ∧ x = y := by
  by_cases hb : b <;> simp [hb]

/-- The DigitsOnly finding fires exactly on the all-digit check. -/
theorem digitsOnly_mem_analyze (leaked keyboard : Bool) (p : Password)
    (personal : List Password) :
    Main.Finding.DigitsOnly ∈ Main.analyze_patterns leaked keyboard p personal
      ↔ Main.digitsOnlyCheck p = true := by
  simp [Main.analyze_patterns, List.mem_append, mem_if_singleton]

/-- The LowercaseOnly finding fires exactly on the all-lowercase check. -/
theorem lowercaseOnly_mem_analyze (leaked keyboard : Bool) (p : Password)
    (personal : List Password) :
    Main.Finding.LowercaseOnly ∈ Main.analyze_patterns leaked keyboard p personal
      ↔ Main.lowercaseOnlyCheck p = true := by
  simp [Main.analyze_patterns, List.mem_append, mem_if_singleton]

/-- No insertion symbol is a digit or a lowercase letter. -/
theorem symbols_not_digit_not_lower :
    ∀ c ∈ symbols, c.isDigit = false ∧ c.isLower = false := by decide

/-- Every digit character is a digit and not a lowercase letter. -/
theorem digitChars_digit_not_lower :
    ∀ c ∈ digitChars, c.isDigit = true ∧ c.isLower = false := by decide

/-- Claim C9: for every non-empty password, each returned variant, fed back
through the pattern analysis, reports neither the DigitsOnly nor the
LowercaseOnly finding, because one symbol and one digit were forcibly
inserted into the variant. -/
theorem c9_roundtrip (pwd : Password) (hpwd : pwd ≠ []) (rng : ℕ → ℕ) (fuel : ℕ)
    (res : Finset Password) (leaked keyboard : Bool) (personal : List Password)
    (h : suggest_improved_variants rng fuel pwd 5 = some res) :
    ∀ v ∈ res,
      Main.Finding.DigitsOnly ∉ Main.analyze_patterns leaked keyboard v personal ∧
        Main.Finding.LowercaseOnly ∉ Main.analyze_patterns leaked keyboard v personal := by
  intro v hv
  have hs := suggestLoop_spec rng pwd 5
    (fun v => (∃ x ∈ v, x ∈ symbols) ∧ ∃ x ∈ v, x ∈ digitChars)
    (fun c => ⟨(makeVariant_shape rng pwd c).2.1, (makeVariant_shape rng pwd c).2.2⟩)
    fuel 0 ∅ res (by simp) (by simp) h
  obtain ⟨⟨x, hxv, hxsym⟩, ⟨y, hyv, hydig⟩⟩ := hs.2 v hv
  constructor
  · rw [digitsOnly_mem_analyze]
    intro hdig
    rw [Main.digitsOnlyCheck, Bool.and_eq_true, List.all_eq_true] at hdig
    have hxd := hdig.2 x hxv
    rw [(symbols_not_digit_not_lower x hxsym).1] at hxd
    exact Bool.noConfusion hxd
  · rw [lowercaseOnly_mem_analyze]
    intro hlow
    rw [Main.lowercaseOnlyCheck, Bool.and_eq_true, List.all_eq_true] at hlow
    have hyl := hlow.2 y hyv
    rw [(digitChars_digit_not_lower y hydig).2] at hyl
    exact Bool.noConfusion hyl

/-- Witness for C9: a concrete variant of "a" from a concrete run. -/
theorem c9_roundtrip_witness :
    Main.Finding.DigitsOnly ∉ Main.analyze_patterns false false ['4', '@', '#'] [] ∧
      Main.Finding.LowercaseOnly ∉ Main.analyze_patterns false false ['4', '@', '#'] [] :=
  c9_roundtrip ['a'] (by decide) (fun n => n) 8
    ((suggest_improved_variants (fun n => n) 8 ['a'] 5).getD ∅) false false []
    (by decide) ['4', '@', '#'] (by decide)

/-- The year scanner is sound and complete for the existential split. -/
theorem hasYearPattern_iff (s : List Char) : hasYearPattern s = true ↔ YearProp s := by
  induction s with
  | nil =>
    constructor
    · intro h
      exact absurd h (by simp [hasYearPattern])
    · rintro ⟨l, r, c1, c2, c3, c4, hs, -⟩
      exact absurd hs (by simp)
  | cons c rest ih =>
    rw [hasYearPattern, Bool.or_eq_true, ih]
    constructor
    · rintro (hys | ⟨l, r, c1, c2, c3, c4, hs, hc, h3, h4⟩)
      · rcases rest with _ | ⟨d2, rest2⟩
        · exact absurd hys (by simp [yearStart])
        rcases rest2 with _ | ⟨d3, rest3⟩
        · exact absurd hys (by simp [yearStart])
        rcases rest3 with _ | ⟨d4, rest4⟩
        · exact absurd hys (by simp [yearStart])
        rw [yearStart] at hys
        simp only [Bool.and_eq_true, Bool.or_eq_true, beq_iff_eq] at hys
        exact ⟨[], rest4, c, d2, d3, d4, rfl, hys.1.1, hys.1.2, hys.2⟩
      · exact ⟨c :: l, r, c1, c2, c3, c4, by rw [hs, List.cons_append], hc, h3, h4⟩
    · rintro ⟨l, r, c1, c2, c3, c4, hs, hc, h3, h4⟩
      rcases l with _ | ⟨a, l2⟩
      · left
        rw [List.nil_append] at hs
        injection hs with ha hb
        subst ha
        subst hb
        rw [yearStart]
        simp only [Bool.and_eq_true, Bool.or_eq_true, beq_iff_eq]
        exact ⟨⟨hc, h3⟩, h4⟩
      · right
        rw [List.cons_append] at hs
        injection hs with ha hb
        exact ⟨l2, r, c1, c2, c3, c4, hb, hc, h3, h4⟩

/-- The front digit-run test is sound and complete for the front split. -/
theorem digitRunHere_iff (n : ℕ) (s : List Char) :
    digitRunHere n s = true ↔
      ∃ m r : List Char, s = m ++ r ∧ m.length = n ∧ (∀ c ∈ m, c.isDigit = true) ∧
        boundaryOk r.head? = true := by
  constructor
  · intro h
    rw [digitRunHere] at h
    simp only [Bool.and_eq_true, beq_iff_eq, List.all_eq_true] at h
    exact ⟨s.take n, s.drop n, (List.take_append_drop n s).symm, h.1.1, h.1.2, h.2⟩
  · rintro ⟨m, r, rfl, hlen, hall, hb⟩
    rw [digitRunHere]
    simp only [Bool.and_eq_true, beq_iff_eq, List.all_eq_true]
    have ht : (m ++ r).take n = m := by
      rw [← hlen]
      exact List.take_left m r
    have hd : (m ++ r).drop n = r := by
      rw [← hlen]
      exact List.drop_left m r
    rw [ht, hd]
    exact ⟨⟨hlen, hall⟩, hb⟩

/-- Scanning past one character shifts the previous-character context. -/
theorem lastOr_cons (prev : Option Char) (a : Char) (l : List Char) :
    lastOr prev (a :: l) = lastOr (some a) l := by
  rcases l with _ | ⟨b, l2⟩
  · simp [lastOr]
  · rcases h : (b :: l2).getLast? with _ | x
    · rw [List.getLast?_eq_none_iff] at h
      exact List.noConfusion h
    · simp [lastOr, List.getLast?_cons_cons, h]

/-- At the start of the string the context is just the last of the
consumed part. -/
theorem lastOr_none (l : List Char) : lastOr none l = l.getLast? := by
  rcases h : l.getLast? with _ | c <;> simp [lastOr, h]

/-- The digit-run scanner is sound and complete for the existential split,
relative to the previous-character context. -/
theorem hasRunFrom_iff (n : ℕ) (hn : n ≠ 0) :
    ∀ (s : List Char) (prev : Option Char),
      hasRunFrom n prev s = true ↔
        ∃ l m r : List Char, s = l ++ m ++ r ∧ m.length = n ∧
          (∀ c ∈ m, c.isDigit = true) ∧ boundaryOk (lastOr prev l) = true ∧
          boundaryOk r.head? = true := by
  intro s
  induction s with
  | nil =>
    intro prev
    constructor
    · intro h
      exact absurd h (by simp [hasRunFrom])
    · rintro ⟨l, m, r, hs, hlen, -, -, -⟩
      obtain ⟨hlm, -⟩ := List.append_eq_nil.mp hs.symm
      obtain ⟨-, hm⟩ := List.append_eq_nil.mp hlm
      rw [hm] at hlen
      exact absurd hlen.symm hn
  | cons c rest ih =>
    intro prev
    rw [hasRunFrom, Bool.or_eq_true, Bool.and_eq_true, digitRunHere_iff, ih (some c)]
    constructor
    · rintro (⟨hbprev, m, r, hsplit, hlen, hall, hb⟩ | ⟨l, m, r, hsplit, hlen, hall, hbl, hb⟩)
      · refine ⟨[], m, r, by rw [List.nil_append, ← hsplit], hlen, hall, ?_, hb⟩
        simpa [lastOr] using hbprev
      · refine ⟨c :: l, m, r, by simp [hsplit], hlen, hall, ?_, hb⟩
        rwa [lastOr_cons]
    · rintro ⟨l, m, r, hsplit, hlen, hall, hbl, hb⟩
      rcases l with _ | ⟨a, l2⟩
      · left
        rw [List.nil_append] at hsplit
        refine ⟨by simpa [lastOr] using hbl, m, r, hsplit, hlen, hall, hb⟩
      · right
        rw [List.cons_append, List.cons_append] at hsplit
        injection hsplit with ha hb2
        subst ha
        exact ⟨l2, m, r, hb2, hlen, hall, by rwa [lastOr_cons] at hbl, hb⟩

/-- The whole-string digit-run search matches the claim predicate. -/
theorem hasBoundedDigitRun_iff (n : ℕ) (hn : n ≠ 0) (s : List Char) :
    hasBoundedDigitRun n s = true ↔ BoundedRunProp n s := by
  rw [hasBoundedDigitRun, hasRunFrom_iff n hn s none, BoundedRunProp]
  simp only [lastOr_none]

/-- Claim C10: the evaluation additionally reports the personal-info regex
findings in a separate list in fixed order (year, full date, phone): the
year finding fires exactly when the password contains a four-digit
substring 19xx or 20xx, the full-date finding exactly when it contains a
word-boundary-delimited run of exactly 8 digits, and the phone finding
exactly when it contains such a run of exactly 10 digits. -/
theorem c10_personal_info (p : Password) :
    (PersonalHit.year ∈ detect_personal_info_patterns p ↔ YearProp p) ∧
      (PersonalHit.fullDate ∈ detect_personal_info_patterns p ↔ BoundedRunProp 8 p) ∧
      (PersonalHit.phone ∈ detect_personal_info_patterns p ↔ BoundedRunProp 10 p) ∧
      (detect_personal_info_patterns p).Sublist
        [PersonalHit.year, PersonalHit.fullDate, PersonalHit.phone] := by
  refine ⟨?_, ?_, ?_, ?_⟩
  · rw [← hasYearPattern_iff]
    simp [detect_personal_info_patterns, mem_if_singleton]
  · rw [← hasBoundedDigitRun_iff 8 (by norm_num)]
    simp [detect_personal_info_patterns, mem_if_singleton]
  · rw [← hasBoundedDigitRun_iff 10 (by norm_num)]
    simp [detect_personal_info_patterns, mem_if_singleton]
  · rcases h1 : hasYearPattern p <;> rcases h2 : hasBoundedDigitRun 8 p <;>
      rcases h3 : hasBoundedDigitRun 10 p <;>
      simp [detect_personal_info_patterns, h1, h2, h3] <;>
      decide
